import Mathlib

/-!
# Bookmaker-disagreement core: formal verification

A shallow embedding of the odds-fairing / bookmaker-disagreement component of
the repository (`src/disagreement.py` and the fair-pairing entry point
`compute_fair_bdi_for_group` of `tools/recompute_bdi_using_both_sides.py`),
together with theorems settling the specification's claims about it.

Conventions of the embedding:

* Python floats are idealised as exact arithmetic: probabilities and odds are
  rationals (`ℚ`), and the transcendental Jensen-Shannon computation is carried
  out over the reals (`ℝ`).
* A Python dict `outcome -> price` is an association list with the dict's
  iteration (insertion) order; dict keys are unique, which is assumed as a
  `Nodup` hypothesis exactly where a proof needs it.
* A dict value that may be `None`, non-numeric or a number is a `PyNum`.
* Every function of the embedding is total, mirroring the source functions,
  which raise on no input in scope (`jensen_shannon` raises only on lists of
  different lengths and is only ever applied to equal-length lists;
  `compute_fair_bdi_for_group` can raise `KeyError`, modelled by `Except`).
-/

/-- A Python value stored as the price of one outcome: `None`, some
non-numeric object, or a number (idealised as a rational). -/
inductive PyNum where
  | none : PyNum
  | nonNumeric : PyNum
  | num : ℚ → PyNum
deriving DecidableEq, Repr

/-- A bookmaker quote set: the dict `outcome_label -> decimal_price`,
in iteration order. -/
abbrev QuoteSet := List (String × PyNum)

/-- A fair distribution: the dict `outcome_label -> probability`,
in iteration order. -/
abbrev FairDist := List (String × ℚ)

/-- The loop of `remove_vig` that builds `raw`: each entry whose price is a
number `v > 0` contributes `(k, 1/v)`; an entry with price `None`, non-numeric
(`v <= 0` raises `TypeError`, caught and skipped) or `≤ 0` is skipped. -/
def rawOf (odds : QuoteSet) : List (String × ℚ) :=
  odds.filterMap (fun kv =>
    match kv.2 with
    | PyNum.num v => if v ≤ 0 then Option.none else some (kv.1, 1 / v)
    | _ => Option.none)

/-- `remove_vig` from `src/disagreement.py`: convert raw decimal odds into a
fair probability distribution.  Empty input returns `{}`; then
`raw[k] = 1/v` for each valid price; if `raw` is empty return `{}`;
`s = sum(raw.values())`; if `s <= 0` return `{}`; else each raw weight is
divided by `s`. -/
def remove_vig (odds : QuoteSet) : FairDist :=
  if odds = [] then []
  else
    let raw := rawOf odds
    if raw = [] then []
    else
      let s := (raw.map Prod.snd).sum
      if s ≤ 0 then [] else raw.map (fun kv => (kv.1, kv.2 / s))

/-- The filtering policy of `remove_vig`: an entry is used iff its price is a
number strictly greater than `0`. -/
def validEntry (kv : String × PyNum) : Bool :=
  match kv.2 with
  | PyNum.num v => decide (0 < v)
  | _ => false

/-- One term of the `_kl_divergence` loop: a term with `pi <= 0` is skipped
(contributes `0`); otherwise `qi_safe` is `qi` if `qi > 0` else the
`eps = 1e-12` floor, and the term is `pi * (log (pi / qi_safe) / log base)`. -/
noncomputable def klTerm (base p q : ℝ) : ℝ :=
  if p ≤ 0 then 0
  else p * (Real.log (p / (if 0 < q then q else 1e-12)) / Real.log base)

/-- `_kl_divergence` from `src/disagreement.py`: `D(p‖q)` summed over the
zipped lists. -/
noncomputable def _kl_divergence (p q : List ℝ) (base : ℝ) : ℝ :=
  ((p.zip q).map (fun x => klTerm base x.1 x.2)).sum

/-- `jensen_shannon` from `src/disagreement.py`: the elementwise midpoint `m`
of the two zipped distributions, then `0.5 * (KL(p‖m) + KL(q‖m))`.
The source raises `ValueError` when the two lists have different lengths;
every application in the source and in this file has equal lengths, on which
`zip` pairs all entries. -/
noncomputable def jensen_shannon (p q : List ℝ) (base : ℝ) : ℝ :=
  let m := (p.zip q).map (fun x => (x.1 + x.2) / 2)
  0.5 * (_kl_divergence p m base + _kl_divergence q m base)

/-- The order `sorted` uses on outcome labels (code-point lexicographic),
phrased on the underlying character lists so that it evaluates by `decide`.
It agrees with `String.le` (`strLe_iff_le`). -/
def strLe (a b : String) : Prop := a.toList ≤ b.toList

instance : DecidableRel strLe := fun a b =>
  inferInstanceAs (Decidable (a.toList ≤ b.toList))

instance : IsTotal String strLe := ⟨fun a b => le_total a.toList b.toList⟩

instance : IsTrans String strLe := ⟨fun _ _ _ h h' => le_trans h h'⟩

/-- Step 1 of `bookmaker_disagreement`: the fair distributions of the
bookmakers whose `remove_vig` output is non-empty, in input order. -/
def fairListOf (l : List QuoteSet) : List FairDist :=
  (l.map remove_vig).filter (fun f => !f.isEmpty)

/-- `n`, the number of surviving bookmakers. -/
def nOf (l : List QuoteSet) : ℕ := (fairListOf l).length

/-- `outcomes`: the sorted union (`sorted(outcomes_set)`) of the outcome
labels of the surviving fair distributions. -/
def outcomesOf (l : List QuoteSet) : List String :=
  List.insertionSort strLe ((fairListOf l).flatMap (fun f => f.map Prod.fst)).dedup

/-- The matrix of `bookmaker_disagreement`: one row per surviving bookmaker,
one column per outcome, `fair.get(o, 0.0)` in each slot. -/
def matrixOf (l : List QuoteSet) : List (List ℚ) :=
  (fairListOf l).map (fun fair =>
    (outcomesOf l).map (fun o => ((fair.lookup o).getD 0)))

/-- Column `c` of the matrix (the probabilities of outcome number `c` across
bookmakers); `vals` in the source's dispersion loop. -/
def colOf (l : List QuoteSet) (c : ℕ) : List ℚ :=
  (matrixOf l).map (fun row => row.getD c 0)

/-- `mean_dist`: the consensus distribution, the columnwise mean. -/
def meanDistOf (l : List QuoteSet) : List ℚ :=
  (List.range (outcomesOf l).length).map (fun c => (colOf l c).sum / (nOf l : ℚ))

/-- `jsds`: the base-2 Jensen-Shannon divergence of each bookmaker's row
against the consensus distribution. -/
noncomputable def jsdsOf (l : List QuoteSet) : List ℝ :=
  (matrixOf l).map (fun row =>
    jensen_shannon (row.map (Rat.cast : ℚ → ℝ)) ((meanDistOf l).map (Rat.cast : ℚ → ℝ)) 2)

/-- `mean_v` of the dispersion loop for column `c`. -/
def meanValOf (l : List QuoteSet) (c : ℕ) : ℚ := (colOf l c).sum / (nOf l : ℚ)

/-- `var` of the dispersion loop: population variance of column `c`. -/
def varOf (l : List QuoteSet) (c : ℕ) : ℚ :=
  ((colOf l c).map (fun v => (v - meanValOf l c) ^ 2)).sum / (nOf l : ℚ)

/-- `mad` of the dispersion loop: mean absolute deviation of column `c`. -/
def madOf (l : List QuoteSet) (c : ℕ) : ℚ :=
  ((colOf l c).map (fun v => |v - meanValOf l c|)).sum / (nOf l : ℚ)

/-- The result dict of `bookmaker_disagreement` as a record.  The `n == 0`
branch of the source returns a dict without a `jsd_list` key; it is embedded
with `jsd_list = []`. -/
structure DisagreementResult where
  jsd_mean : Option ℝ
  jsd_list : List ℝ
  per_outcome_std : List (String × ℝ)
  per_outcome_mad : List (String × ℝ)
  n_bookmakers : ℕ
  outcomes : List String

/-- `bookmaker_disagreement` from `src/disagreement.py`.  With no surviving
bookmaker it returns the defined no-data result; otherwise `jsd_mean` is
`sum(jsds)/len(jsds)` and the per-outcome dispersion dicts are built over
`enumerate(outcomes)` with `std = sqrt(var)`. -/
noncomputable def bookmaker_disagreement (l : List QuoteSet) : DisagreementResult :=
  if nOf l = 0 then ⟨Option.none, [], [], [], 0, []⟩
  else
    ⟨some ((jsdsOf l).sum / ((jsdsOf l).length : ℝ)),
     jsdsOf l,
     (outcomesOf l).enum.map (fun io => (io.2, Real.sqrt ((varOf l io.1 : ℚ) : ℝ))),
     (outcomesOf l).enum.map (fun io => (io.2, ((madOf l io.1 : ℚ) : ℝ))),
     nOf l,
     outcomesOf l⟩

/-- The result dict of `compute_fair_bdi_for_group` as a record. -/
structure FairBDI where
  fair_BDI_jsd : ℝ
  fair_BDI_n_bookmakers : ℕ
  fair_BDI_std_p : ℝ
  fair_BDI_mad_p : ℝ

/-- The loop body of `compute_fair_bdi_for_group`: for a common bookmaker,
feed its Over/Under price pair to `remove_vig`.  `if not fair or 'over' not
in fair: continue` is exactly "`fair.lookup "over"` is `none`" (an empty dict
has no keys); then `p_over = fair['over']` is the found value, and
`p_under = fair['under']` raises `KeyError` (`Except.error`) when `'under'`
is absent. -/
def fairPairStep (under_odds : List (String × ℚ)) (acc : List (ℚ × ℚ))
    (kv : String × ℚ) : Except Unit (List (ℚ × ℚ)) :=
  let fair := remove_vig
    [("over", PyNum.num kv.2), ("under", PyNum.num ((under_odds.lookup kv.1).getD 0))]
  match fair.lookup "over" with
  | Option.none => Except.ok acc
  | some p_over =>
    match fair.lookup "under" with
    | Option.none => Except.error ()
    | some p_under => Except.ok (acc ++ [(p_over, p_under)])

/-- `compute_fair_bdi_for_group` from `tools/recompute_bdi_using_both_sides.py`.
`common` keeps the Over-side entries of the bookmakers that also appear on the
Under side (dict order); fewer than two common bookies, or fewer than two
surviving pairs, give `None`.  Otherwise the consensus is the componentwise
mean of the per-bookie fair `(p_over, p_under)` pairs, the group BDI is the
mean base-2 JSD against it, and the dispersion is the population std/mad of
the `p_over` list.  A `KeyError` of the loop is `Except.error ()`. -/
noncomputable def compute_fair_bdi_for_group (over_odds under_odds : List (String × ℚ)) :
    Except Unit (Option FairBDI) :=
  let common := over_odds.filter (fun kv => (under_odds.lookup kv.1).isSome)
  if common.length < 2 then Except.ok Option.none
  else
    match common.foldlM (fairPairStep under_odds) [] with
    | Except.error e => Except.error e
    | Except.ok bookie_dists =>
      if bookie_dists.length < 2 then Except.ok Option.none
      else
        let p_over_list := bookie_dists.map Prod.fst
        let mean0 : ℚ := (bookie_dists.map Prod.fst).sum / (bookie_dists.length : ℚ)
        let mean1 : ℚ := (bookie_dists.map Prod.snd).sum / (bookie_dists.length : ℚ)
        let jsds := bookie_dists.map (fun pq =>
          jensen_shannon [(pq.1 : ℝ), (pq.2 : ℝ)] [(mean0 : ℝ), (mean1 : ℝ)] 2)
        let mean_p := p_over_list.sum / (p_over_list.length : ℚ)
        let var := (p_over_list.map (fun p => (p - mean_p) ^ 2)).sum / (p_over_list.length : ℚ)
        Except.ok (some
          ⟨jsds.sum / (jsds.length : ℝ),
           bookie_dists.length,
           Real.sqrt ((var : ℚ) : ℝ),
           (((p_over_list.map (fun p => |p - mean_p|)).sum / (p_over_list.length : ℚ) : ℚ) : ℝ)⟩)

/-- Closed form of `remove_vig` on one bookmaker's valid Over/Under pair:
the normalized raw weights `(1/o, 1/u)`. -/
def pairFair (p : ℚ × ℚ) : ℚ × ℚ :=
  ((1 / p.1) / (1 / p.1 + 1 / p.2), (1 / p.2) / (1 / p.1 + 1 / p.2))

/-- `p_over_list`: the fair Over probabilities of the paired bookmakers. -/
def overProbs (ps : List (ℚ × ℚ)) : List ℚ := ps.map (fun p => (pairFair p).1)

/-- The fair Under probabilities of the paired bookmakers. -/
def underProbs (ps : List (ℚ × ℚ)) : List ℚ := ps.map (fun p => (pairFair p).2)

/-- Consensus Over probability. -/
def overMean (ps : List (ℚ × ℚ)) : ℚ := (overProbs ps).sum / (ps.length : ℚ)

/-- Consensus Under probability. -/
def underMean (ps : List (ℚ × ℚ)) : ℚ := (underProbs ps).sum / (ps.length : ℚ)

/-- Per-bookmaker base-2 JSD against the consensus, for paired quotes. -/
noncomputable def pairJsds (ps : List (ℚ × ℚ)) : List ℝ :=
  ps.map (fun p => jensen_shannon
    [((pairFair p).1 : ℝ), ((pairFair p).2 : ℝ)]
    [((overMean ps : ℚ) : ℝ), ((underMean ps : ℚ) : ℝ)] 2)

/-- Population variance of the fair Over probabilities. -/
def overVar (ps : List (ℚ × ℚ)) : ℚ :=
  ((overProbs ps).map (fun v => (v - overMean ps) ^ 2)).sum / (ps.length : ℚ)

/-- Mean absolute deviation of the fair Over probabilities. -/
def overMad (ps : List (ℚ × ℚ)) : ℚ :=
  ((overProbs ps).map (fun v => |v - overMean ps|)).sum / (ps.length : ℚ)

/-- Population variance of the fair Under probabilities. -/
def underVar (ps : List (ℚ × ℚ)) : ℚ :=
  ((underProbs ps).map (fun v => (v - underMean ps) ^ 2)).sum / (ps.length : ℚ)

/-- Mean absolute deviation of the fair Under probabilities. -/
def underMad (ps : List (ℚ × ℚ)) : ℚ :=
  ((underProbs ps).map (fun v => |v - underMean ps|)).sum / (ps.length : ℚ)

/-- The Over/Under pairs the tool derives from the common bookmakers:
Over price from the Over row, Under price via dict lookup. -/
def commonPairs (over_odds under_odds : List (String × ℚ)) : List (ℚ × ℚ) :=
  (over_odds.filter (fun kv => (under_odds.lookup kv.1).isSome)).map
    (fun kv => (kv.2, (under_odds.lookup kv.1).getD 0))

/-! ## Basic facts about `remove_vig` -/

theorem strLe_iff_le (a b : String) : strLe a b ↔ a ≤ b :=
  (String.le_iff_toList_le).symm

theorem rawOf_nil : rawOf [] = [] := rfl

/-- Every raw implied weight is positive: it is `1/v` for a price `v > 0`. -/
theorem rawOf_pos (odds : QuoteSet) : ∀ kv ∈ rawOf odds, 0 < kv.2 := by
  intro kv hkv
  rcases List.mem_filterMap.mp hkv with ⟨a, _, ha⟩
  rcases a with ⟨k, v⟩
  cases v with
  | none => simp at ha
  | nonNumeric => simp at ha
  | num q =>
    by_cases hq : q ≤ 0
    · simp [hq] at ha
    · simp [hq] at ha
      rw [← ha]
      simpa using inv_pos.mpr (lt_of_not_le hq)

theorem sum_map_div (l : List ℚ) (c : ℚ) :
    (l.map (fun x => x / c)).sum = l.sum / c := by
  induction l with
  | nil => simp
  | cons a t ih => simp [add_div, ih]

/-- When at least one raw weight survives, `remove_vig` takes its final
branch: the sum of the raw weights is positive and each is divided by it. -/
theorem remove_vig_of_raw_ne_nil (odds : QuoteSet) (h : rawOf odds ≠ []) :
    remove_vig odds =
      (rawOf odds).map (fun kv => (kv.1, kv.2 / ((rawOf odds).map Prod.snd).sum)) := by
  have hodds : odds ≠ [] := by
    intro hnil
    exact h (hnil ▸ rawOf_nil)
  have hs : 0 < ((rawOf odds).map Prod.snd).sum := by
    apply List.sum_pos
    · intro x hx
      rcases List.mem_map.mp hx with ⟨kv, hkv, hx'⟩
      exact hx' ▸ rawOf_pos odds kv hkv
    · simpa using h
  rw [remove_vig, if_neg hodds]
  simp only [h, if_neg, hs.not_le]
  simp [h]

/-- The values of a non-empty `remove_vig` output sum to exactly `1`. -/
theorem remove_vig_sum_eq_one (odds : QuoteSet) (h : rawOf odds ≠ []) :
    ((remove_vig odds).map Prod.snd).sum = 1 := by
  have hs : 0 < ((rawOf odds).map Prod.snd).sum := by
    apply List.sum_pos
    · intro x hx
      rcases List.mem_map.mp hx with ⟨kv, hkv, hx'⟩
      exact hx' ▸ rawOf_pos odds kv hkv
    · simpa using h
  rw [remove_vig_of_raw_ne_nil odds h, List.map_map]
  have : (Prod.snd ∘ fun kv : String × ℚ =>
      (kv.1, kv.2 / ((rawOf odds).map Prod.snd).sum)) =
      (fun kv : String × ℚ => kv.2 / ((rawOf odds).map Prod.snd).sum) := rfl
  rw [this]
  have hcomp : (fun kv : String × ℚ => kv.2 / ((rawOf odds).map Prod.snd).sum) =
      (fun x : ℚ => x / ((rawOf odds).map Prod.snd).sum) ∘ Prod.snd := rfl
  rw [hcomp, ← List.map_map, sum_map_div]
  exact div_self hs.ne'

/-- A valid entry (numeric price `> 0`) puts a weight into `raw`. -/
theorem rawOf_ne_nil_of_valid (odds : QuoteSet)
    (h : ∃ kv ∈ odds, ∃ q : ℚ, kv.2 = PyNum.num q ∧ 0 < q) : rawOf odds ≠ [] := by
  rcases h with ⟨kv, hmem, q, hq, hq0⟩
  have hmem2 : (kv.1, 1 / q) ∈ rawOf odds := by
    apply List.mem_filterMap.mpr
    refine ⟨kv, hmem, ?_⟩
    rw [hq]
    simp [hq0.not_le]
  exact List.ne_nil_of_mem hmem2

/-- C1. For every quote set holding at least one valid entry (a numeric price
strictly greater than 0), the values of the mapping returned by `remove_vig`
sum to 1 within `1e-9`.  (In this exact-arithmetic embedding the sum is
exactly `1`, hence inside the tolerance.) -/
theorem remove_vig_normalization (odds : QuoteSet)
    (h : ∃ kv ∈ odds, ∃ q : ℚ, kv.2 = PyNum.num q ∧ 0 < q) :
    |((remove_vig odds).map Prod.snd).sum - 1| ≤ 1 / 1000000000 := by
  rw [remove_vig_sum_eq_one odds (rawOf_ne_nil_of_valid odds h)]
  norm_num

theorem remove_vig_normalization_witness :
    (∃ kv ∈ [("A", PyNum.num 2), ("B", PyNum.num 2)], ∃ q : ℚ,
        kv.2 = PyNum.num q ∧ 0 < q) ∧
      |((remove_vig [("A", PyNum.num 2), ("B", PyNum.num 2)]).map Prod.snd).sum - 1|
        ≤ 1 / 1000000000 := by
  have h : ∃ kv ∈ [("A", PyNum.num 2), ("B", PyNum.num 2)], ∃ q : ℚ,
      kv.2 = PyNum.num q ∧ 0 < q :=
    ⟨("A", PyNum.num 2), by simp, 2, rfl, by norm_num⟩
  exact ⟨h, remove_vig_normalization _ h⟩

theorem rawOf_filter_validEntry (odds : QuoteSet) :
    rawOf (odds.filter validEntry) = rawOf odds := by
  induction odds with
  | nil => rfl
  | cons kv t ih =>
    rcases kv with ⟨k, v⟩
    cases v with
    | none => simpa [rawOf, validEntry] using ih
    | nonNumeric => simpa [rawOf, validEntry] using ih
    | num q =>
      by_cases hq : q ≤ 0
      · have : validEntry (k, PyNum.num q) = false := by
          simp [validEntry, not_lt.mpr hq]
        simp only [List.filter_cons, this, Bool.false_eq_true, if_false]
        simpa [rawOf, hq] using ih
      · have : validEntry (k, PyNum.num q) = true := by
          simp [validEntry, lt_of_not_le hq]
        simp only [List.filter_cons, this, if_true]
        simp only [rawOf, List.filterMap_cons] at ih ⊢
        simp only [if_neg hq]
        rw [ih]

theorem rawOf_eq_nil_of_all_invalid (odds : QuoteSet)
    (h : ∀ kv ∈ odds, validEntry kv = false) : rawOf odds = [] := by
  apply List.filterMap_eq_nil_iff.mpr
  intro kv hkv
  have := h kv hkv
  cases hv : kv.2 with
  | none => simp [hv]
  | nonNumeric => simp [hv]
  | num q =>
    have hq : ¬ 0 < q := by
      simpa [validEntry, hv] using this
    simp [hv, not_lt.mp hq]

/-- C2. `remove_vig` silently skips invalid entries and never raises: its
output only depends on the entries whose price is a number `> 0` (they alone
enter numerator and denominator), an all-invalid input gives `{}`, and in
particular `remove_vig {} = {}` and `remove_vig {"A": -1, "B": 0} = {}`.
(Totality — "never raises" — holds by construction: `remove_vig` is a total
Lean function.) -/
theorem remove_vig_invalid_skip :
    (∀ odds : QuoteSet, remove_vig odds = remove_vig (odds.filter validEntry)) ∧
    (∀ odds : QuoteSet, (∀ kv ∈ odds, validEntry kv = false) → remove_vig odds = []) ∧
    remove_vig [] = [] ∧
    remove_vig [("A", PyNum.num (-1)), ("B", PyNum.num 0)] = [] := by
  have hall : ∀ odds : QuoteSet,
      (∀ kv ∈ odds, validEntry kv = false) → remove_vig odds = [] := by
    intro odds h
    have hraw := rawOf_eq_nil_of_all_invalid odds h
    rw [remove_vig]
    split
    · rfl
    · simp [hraw]
  refine ⟨?_, hall, rfl, ?_⟩
  · intro odds
    by_cases hraw : rawOf odds = []
    · have h1 : remove_vig odds = [] := by
        rw [remove_vig]
        split
        · rfl
        · simp [hraw]
      have h2 : remove_vig (odds.filter validEntry) = [] := by
        rw [remove_vig]
        split
        · rfl
        · simp [rawOf_filter_validEntry, hraw]
      rw [h1, h2]
    · have hraw' : rawOf (odds.filter validEntry) ≠ [] := by
        rw [rawOf_filter_validEntry]; exact hraw
      rw [remove_vig_of_raw_ne_nil odds hraw,
        remove_vig_of_raw_ne_nil _ hraw', rawOf_filter_validEntry]
  · apply hall
    intro kv hkv
    rcases List.mem_cons.mp hkv with h | h
    · rw [h]; simp [validEntry]
    · rcases List.mem_cons.mp h with h' | h'
      · rw [h']; simp [validEntry]
      · simp at h'

theorem remove_vig_invalid_skip_witness :
    remove_vig [("A", PyNum.nonNumeric), ("B", PyNum.none)] = [] := by
  apply remove_vig_invalid_skip.2.1
  intro kv hkv
  rcases List.mem_cons.mp hkv with h | h
  · rw [h]; rfl
  · rcases List.mem_cons.mp h with h' | h'
    · rw [h']; rfl
    · simp at h'

/-- C6. On the symmetric two-outcome inputs `{"A": 2.0, "B": 2.0}` and
`{"A": 1.8, "B": 1.8}`, `remove_vig` returns exactly `{"A": 0.5, "B": 0.5}`:
the margin cancels proportionally when both sides carry the same price. -/
theorem remove_vig_symmetric_exact :
    remove_vig [("A", PyNum.num 2), ("B", PyNum.num 2)] = [("A", 1/2), ("B", 1/2)] ∧
    remove_vig [("A", PyNum.num 1.8), ("B", PyNum.num 1.8)] = [("A", 1/2), ("B", 1/2)] := by
  constructor
  · norm_num [remove_vig, rawOf, List.filterMap]
    simp
  · norm_num [remove_vig, rawOf, List.filterMap]
    simp

/-! ## The no-data branch of the scorer -/

/-- C3. On any list of quote sets in which every quote set de-vigs to the
empty fair distribution (the empty list included), `bookmaker_disagreement`
returns the defined no-data result: `jsd_mean = None`, empty dispersion
mappings, `n_bookmakers = 0` and `outcomes = []`.  (That it never raises for
malformed individual quotes holds by construction: the embedding is a total
function, mirroring the source's skip rule.) -/
theorem bookmaker_disagreement_no_data (l : List QuoteSet)
    (h : ∀ qs ∈ l, remove_vig qs = []) :
    bookmaker_disagreement l = ⟨Option.none, [], [], [], 0, []⟩ := by
  have hfair : fairListOf l = [] := by
    apply List.filter_eq_nil_iff.mpr
    intro f hf
    rcases List.mem_map.mp hf with ⟨qs, hqs, hfq⟩
    rw [← hfq, h qs hqs]
    simp
  rw [bookmaker_disagreement, if_pos]
  rw [nOf, hfair]
  rfl

theorem bookmaker_disagreement_no_data_witness :
    (∀ qs ∈ [[(("A" : String), PyNum.num 0)], ([] : QuoteSet)], remove_vig qs = []) ∧
      bookmaker_disagreement [[(("A" : String), PyNum.num 0)], ([] : QuoteSet)] =
        ⟨Option.none, [], [], [], 0, []⟩ := by
  have h : ∀ qs ∈ [[(("A" : String), PyNum.num 0)], ([] : QuoteSet)], remove_vig qs = [] := by
    intro qs hqs
    rcases List.mem_cons.mp hqs with h' | h'
    · rw [h']
      norm_num [remove_vig, rawOf, List.filterMap]
    · rcases List.mem_cons.mp h' with h'' | h''
      · rw [h'']; rfl
      · simp at h''
  exact ⟨h, bookmaker_disagreement_no_data _ h⟩

/-! ## Bounds on single KL terms

The three inequalities below carry all the analysis the claims need: each
summand of `_kl_divergence` in base 2 is bounded below by `(p - q) / log 2`
(strictly when `0 < p ≠ q`) and above by `p` whenever `p ≤ 2q`. -/

theorem log_two_pos : (0 : ℝ) < Real.log 2 := Real.log_pos (by norm_num)

theorem klTerm_ge (p q : ℝ) (hp : 0 ≤ p) (hq : 0 ≤ q) (himp : 0 < p → 0 < q) :
    (p - q) / Real.log 2 ≤ klTerm 2 p q := by
  rcases eq_or_lt_of_le hp with h0 | hpos
  · rw [klTerm, if_pos (le_of_eq h0.symm)]
    apply div_nonpos_of_nonpos_of_nonneg _ log_two_pos.le
    rw [← h0]
    linarith
  · have hq' := himp hpos
    rw [klTerm, if_neg (not_le.mpr hpos), if_pos hq']
    have h1 : Real.log (q / p) ≤ q / p - 1 :=
      Real.log_le_sub_one_of_pos (div_pos hq' hpos)
    have h2 : Real.log (p / q) = -Real.log (q / p) := by
      rw [← Real.log_inv]
      congr 1
      rw [inv_div]
    have h3 : 1 - q / p ≤ Real.log (p / q) := by
      rw [h2]; linarith
    have h4 : p - q ≤ p * Real.log (p / q) := by
      have h5 := mul_le_mul_of_nonneg_left h3 hp
      have h6 : p * (1 - q / p) = p - q := by
        field_simp
      linarith
    calc (p - q) / Real.log 2 ≤ p * Real.log (p / q) / Real.log 2 := by
          gcongr
      _ = p * (Real.log (p / q) / Real.log 2) := by ring

theorem klTerm_gt (p q : ℝ) (hp : 0 < p) (hq : 0 < q) (hne : p ≠ q) :
    (p - q) / Real.log 2 < klTerm 2 p q := by
  rw [klTerm, if_neg (not_le.mpr hp), if_pos hq]
  have h1 : Real.log (q / p) < q / p - 1 := by
    apply Real.log_lt_sub_one_of_pos (div_pos hq hp)
    intro hcon
    exact hne ((div_eq_one_iff_eq hp.ne').mp hcon).symm
  have h2 : Real.log (p / q) = -Real.log (q / p) := by
    rw [← Real.log_inv]
    congr 1
    rw [inv_div]
  have h3 : 1 - q / p < Real.log (p / q) := by
    rw [h2]; linarith
  have h4 : p - q < p * Real.log (p / q) := by
    have h5 := (mul_lt_mul_left hp).mpr h3
    have h6 : p * (1 - q / p) = p - q := by
      field_simp
    linarith
  calc (p - q) / Real.log 2 < p * Real.log (p / q) / Real.log 2 :=
        (div_lt_div_iff_of_pos_right log_two_pos).mpr h4
    _ = p * (Real.log (p / q) / Real.log 2) := by ring

theorem klTerm_le (p q : ℝ) (hp : 0 ≤ p) (h2q : p ≤ 2 * q) : klTerm 2 p q ≤ p := by
  rcases eq_or_lt_of_le hp with h0 | hpos
  · rw [klTerm, if_pos (le_of_eq h0.symm)]
    exact h0.le
  · have hq : 0 < q := by linarith
    rw [klTerm, if_neg (not_le.mpr hpos), if_pos hq]
    have h1 : p / q ≤ 2 := (div_le_iff₀ hq).mpr (by linarith)
    have h2 : Real.log (p / q) ≤ Real.log 2 :=
      Real.log_le_log (div_pos hpos hq) h1
    have h3 : Real.log (p / q) / Real.log 2 ≤ 1 :=
      (div_le_one log_two_pos).mpr h2
    calc p * (Real.log (p / q) / Real.log 2) ≤ p * 1 :=
          mul_le_mul_of_nonneg_left h3 hp
      _ = p := mul_one p

/-! ## Symmetry and degeneracy of `jensen_shannon` -/

theorem jensen_shannon_comm (p q : List ℝ) (base : ℝ) :
    jensen_shannon p q base = jensen_shannon q p base := by
  simp only [jensen_shannon]
  have hm : (q.zip p).map (fun x => (x.1 + x.2) / 2)
      = (p.zip q).map (fun x => (x.1 + x.2) / 2) := by
    rw [← List.zip_swap p q, List.map_map]
    congr 1
    funext x
    simp [add_comm]
  rw [hm]
  ring

theorem klTerm_self (base a : ℝ) : klTerm base a a = 0 := by
  rw [klTerm]
  split
  · rfl
  · rename_i h
    have ha : 0 < a := lt_of_not_le h
    rw [if_pos ha, div_self ha.ne', Real.log_one, zero_div, mul_zero]

theorem kl_divergence_self_mid (x : List ℝ) (base : ℝ) :
    _kl_divergence x ((x.zip x).map (fun pq => (pq.1 + pq.2) / 2)) base = 0 := by
  induction x with
  | nil => rfl
  | cons a t ih =>
    simp only [_kl_divergence, List.zip_cons_cons, List.map_cons, List.sum_cons] at ih ⊢
    rw [add_self_div_two, klTerm_self, zero_add]
    exact ih

theorem jensen_shannon_self (x : List ℝ) (base : ℝ) :
    jensen_shannon x x base = 0 := by
  simp only [jensen_shannon]
  rw [kl_divergence_self_mid]
  ring

/-- `jensen_shannon` on a concrete pair of two-entry lists, written as a sum
of four `klTerm`s against the elementwise midpoint. -/
theorem jensen_shannon_two (p1 p2 q1 q2 base : ℝ) :
    jensen_shannon [p1, p2] [q1, q2] base =
      0.5 * ((klTerm base p1 ((p1 + q1) / 2) + klTerm base p2 ((p2 + q2) / 2)) +
             (klTerm base q1 ((p1 + q1) / 2) + klTerm base q2 ((p2 + q2) / 2))) := by
  simp [jensen_shannon, _kl_divergence]

/-- The base-2 Jensen-Shannon divergence of two nonnegative 2-entry vectors
is nonnegative (no sum constraint is needed: the midpoint halves the total). -/
theorem jensen_shannon_nonneg_two (p1 p2 q1 q2 : ℝ)
    (hp1 : 0 ≤ p1) (hp2 : 0 ≤ p2) (hq1 : 0 ≤ q1) (hq2 : 0 ≤ q2) :
    0 ≤ jensen_shannon [p1, p2] [q1, q2] 2 := by
  rw [jensen_shannon_two]
  have e1 := klTerm_ge p1 ((p1 + q1) / 2) hp1 (by linarith) (fun h => by linarith)
  have e2 := klTerm_ge p2 ((p2 + q2) / 2) hp2 (by linarith) (fun h => by linarith)
  have e3 := klTerm_ge q1 ((p1 + q1) / 2) hq1 (by linarith) (fun h => by linarith)
  have e4 := klTerm_ge q2 ((p2 + q2) / 2) hq2 (by linarith) (fun h => by linarith)
  have hzero : p1 - (p1 + q1) / 2 + (p2 - (p2 + q2) / 2) + (q1 - (p1 + q1) / 2)
      + (q2 - (p2 + q2) / 2) = 0 := by ring
  have hcollect : (p1 - (p1 + q1) / 2) / Real.log 2 + (p2 - (p2 + q2) / 2) / Real.log 2
      + (q1 - (p1 + q1) / 2) / Real.log 2 + (q2 - (p2 + q2) / 2) / Real.log 2 = 0 := by
    rw [div_add_div_same, div_add_div_same, div_add_div_same, hzero, zero_div]
  linarith

/-- The base-2 Jensen-Shannon divergence of two 2-entry distributions is
strictly positive as soon as they differ in some coordinate. -/
theorem jensen_shannon_pos_two (p1 p2 q1 q2 : ℝ)
    (hp1 : 0 ≤ p1) (hp2 : 0 ≤ p2) (hq1 : 0 ≤ q1) (hq2 : 0 ≤ q2)
    (hne : p1 ≠ q1 ∨ p2 ≠ q2) :
    0 < jensen_shannon [p1, p2] [q1, q2] 2 := by
  rw [jensen_shannon_two]
  have e1 := klTerm_ge p1 ((p1 + q1) / 2) hp1 (by linarith) (fun h => by linarith)
  have e2 := klTerm_ge p2 ((p2 + q2) / 2) hp2 (by linarith) (fun h => by linarith)
  have e3 := klTerm_ge q1 ((p1 + q1) / 2) hq1 (by linarith) (fun h => by linarith)
  have e4 := klTerm_ge q2 ((p2 + q2) / 2) hq2 (by linarith) (fun h => by linarith)
  have hzero : p1 - (p1 + q1) / 2 + (p2 - (p2 + q2) / 2) + (q1 - (p1 + q1) / 2)
      + (q2 - (p2 + q2) / 2) = 0 := by ring
  have hcollect : (p1 - (p1 + q1) / 2) / Real.log 2 + (p2 - (p2 + q2) / 2) / Real.log 2
      + (q1 - (p1 + q1) / 2) / Real.log 2 + (q2 - (p2 + q2) / 2) / Real.log 2 = 0 := by
    rw [div_add_div_same, div_add_div_same, div_add_div_same, hzero, zero_div]
  rcases hne with hne1 | hne2
  · rcases lt_or_gt_of_ne hne1 with hlt | hgt
    · have s3 : (q1 - (p1 + q1) / 2) / Real.log 2 < klTerm 2 q1 ((p1 + q1) / 2) := by
        apply klTerm_gt q1 ((p1 + q1) / 2) (by linarith) (by linarith)
        intro hcon
        exact (by linarith : q1 ≠ (p1 + q1) / 2) hcon
      linarith
    · have s1 : (p1 - (p1 + q1) / 2) / Real.log 2 < klTerm 2 p1 ((p1 + q1) / 2) := by
        apply klTerm_gt p1 ((p1 + q1) / 2) (by linarith) (by linarith)
        intro hcon
        exact (by linarith : p1 ≠ (p1 + q1) / 2) hcon
      linarith
  · rcases lt_or_gt_of_ne hne2 with hlt | hgt
    · have s4 : (q2 - (p2 + q2) / 2) / Real.log 2 < klTerm 2 q2 ((p2 + q2) / 2) := by
        apply klTerm_gt q2 ((p2 + q2) / 2) (by linarith) (by linarith)
        intro hcon
        exact (by linarith : q2 ≠ (p2 + q2) / 2) hcon
      linarith
    · have s2 : (p2 - (p2 + q2) / 2) / Real.log 2 < klTerm 2 p2 ((p2 + q2) / 2) := by
        apply klTerm_gt p2 ((p2 + q2) / 2) (by linarith) (by linarith)
        intro hcon
        exact (by linarith : p2 ≠ (p2 + q2) / 2) hcon
      linarith

/-- The base-2 Jensen-Shannon divergence of two 2-entry distributions (each
summing to 1) is at most 1. -/
theorem jensen_shannon_le_one_two (p1 p2 q1 q2 : ℝ)
    (hp1 : 0 ≤ p1) (hp2 : 0 ≤ p2) (hq1 : 0 ≤ q1) (hq2 : 0 ≤ q2)
    (hp : p1 + p2 = 1) (hq : q1 + q2 = 1) :
    jensen_shannon [p1, p2] [q1, q2] 2 ≤ 1 := by
  rw [jensen_shannon_two]
  have u1 := klTerm_le p1 ((p1 + q1) / 2) hp1 (by linarith)
  have u2 := klTerm_le p2 ((p2 + q2) / 2) hp2 (by linarith)
  have u3 := klTerm_le q1 ((p1 + q1) / 2) hq1 (by linarith)
  have u4 := klTerm_le q2 ((p2 + q2) / 2) hq2 (by linarith)
  linarith

/-- C4. For any two probability distributions over the same 2-outcome support
(nonnegative entries summing to 1), `jensen_shannon` with base 2 is symmetric
and its value lies in `[0, 1]`. -/
theorem jensen_shannon_symm_and_bounds (p1 p2 q1 q2 : ℝ)
    (hp1 : 0 ≤ p1) (hp2 : 0 ≤ p2) (hq1 : 0 ≤ q1) (hq2 : 0 ≤ q2)
    (hp : p1 + p2 = 1) (hq : q1 + q2 = 1) :
    jensen_shannon [p1, p2] [q1, q2] 2 = jensen_shannon [q1, q2] [p1, p2] 2 ∧
    0 ≤ jensen_shannon [p1, p2] [q1, q2] 2 ∧
    jensen_shannon [p1, p2] [q1, q2] 2 ≤ 1 :=
  ⟨jensen_shannon_comm _ _ _,
   jensen_shannon_nonneg_two p1 p2 q1 q2 hp1 hp2 hq1 hq2,
   jensen_shannon_le_one_two p1 p2 q1 q2 hp1 hp2 hq1 hq2 hp hq⟩

theorem jensen_shannon_symm_and_bounds_witness :
    jensen_shannon [(1:ℝ)/2, 1/2] [(1:ℝ)/3, 2/3] 2
        = jensen_shannon [(1:ℝ)/3, 2/3] [(1:ℝ)/2, 1/2] 2 ∧
    0 ≤ jensen_shannon [(1:ℝ)/2, 1/2] [(1:ℝ)/3, 2/3] 2 ∧
    jensen_shannon [(1:ℝ)/2, 1/2] [(1:ℝ)/3, 2/3] 2 ≤ 1 :=
  jensen_shannon_symm_and_bounds (1/2) (1/2) (1/3) (2/3)
    (by norm_num) (by norm_num) (by norm_num) (by norm_num) (by norm_num) (by norm_num)

/-! ## Zero disagreement for identical fair distributions -/

theorem map_range_getD {α : Type} (l : List α) (d : α) :
    (List.range l.length).map (fun c => l.getD c d) = l := by
  apply List.ext_getElem
  · simp
  · intro i h1 h2
    simp [List.getD_eq_getElem l d, List.getElem?_eq_getElem h2]

/-- Concrete evaluation helper, shared by several witnesses: the symmetric
two-way quote set de-vigs to the uniform distribution. -/
theorem remove_vig_AB_two :
    remove_vig [("A", PyNum.num 2), ("B", PyNum.num 2)] = [("A", 1/2), ("B", 1/2)] := by
  norm_num [remove_vig, rawOf, List.filterMap]
  simp

/-- When every surviving fair distribution equals `f0`, the whole pipeline of
`bookmaker_disagreement` degenerates: the matrix is a constant list of rows,
the consensus is that row, every per-column statistic is `0` and every JSD
is `0`. -/
theorem pipeline_of_replicate (l : List QuoteSet) (f0 : FairDist)
    (hrep : fairListOf l = List.replicate (nOf l) f0) (hn : nOf l ≠ 0) :
    matrixOf l = List.replicate (nOf l)
        ((outcomesOf l).map (fun o => ((f0.lookup o).getD 0))) ∧
    meanDistOf l = (outcomesOf l).map (fun o => ((f0.lookup o).getD 0)) ∧
    (∀ c, varOf l c = 0) ∧ (∀ c, madOf l c = 0) ∧
    jsdsOf l = List.replicate (nOf l) 0 := by
  have hncast : ((nOf l : ℚ)) ≠ 0 := Nat.cast_ne_zero.mpr hn
  set row0 := (outcomesOf l).map (fun o => ((f0.lookup o).getD 0)) with hrow0
  have hmat : matrixOf l = List.replicate (nOf l) row0 := by
    rw [matrixOf, hrep, List.map_replicate]
  have hcol : ∀ c, colOf l c = List.replicate (nOf l) (row0.getD c 0) := by
    intro c
    rw [colOf, hmat, List.map_replicate]
  have hmeanVal : ∀ c, meanValOf l c = row0.getD c 0 := by
    intro c
    rw [meanValOf, hcol c, List.sum_replicate, nsmul_eq_mul,
      mul_div_cancel_left₀ _ hncast]
  have hvar : ∀ c, varOf l c = 0 := by
    intro c
    rw [varOf, hcol c, List.map_replicate]
    rw [show meanValOf l c = row0.getD c 0 from hmeanVal c]
    simp
  have hmad : ∀ c, madOf l c = 0 := by
    intro c
    rw [madOf, hcol c, List.map_replicate]
    rw [show meanValOf l c = row0.getD c 0 from hmeanVal c]
    simp
  have hmean : meanDistOf l = row0 := by
    rw [meanDistOf]
    have hlen : (outcomesOf l).length = row0.length := by
      rw [hrow0, List.length_map]
    rw [hlen]
    have := map_range_getD row0 (0 : ℚ)
    calc (List.range row0.length).map (fun c => (colOf l c).sum / (nOf l : ℚ))
        = (List.range row0.length).map (fun c => row0.getD c 0) := by
          apply List.map_congr_left
          intro c _
          have := hmeanVal c
          rw [meanValOf] at this
          exact this
      _ = row0 := map_range_getD row0 0
  have hjsds : jsdsOf l = List.replicate (nOf l) 0 := by
    rw [jsdsOf, hmat, hmean, List.map_replicate, jensen_shannon_self]
  exact ⟨hmat, hmean, hvar, hmad, hjsds⟩

theorem bd_zero_of_identical_aux (l : List QuoteSet)
    (hne : fairListOf l ≠ [])
    (hid : ∀ f ∈ fairListOf l, ∀ g ∈ fairListOf l, f = g) :
    (bookmaker_disagreement l).jsd_mean = some 0 ∧
    (∀ kv ∈ (bookmaker_disagreement l).per_outcome_std, kv.2 = 0) ∧
    (∀ kv ∈ (bookmaker_disagreement l).per_outcome_mad, kv.2 = 0) := by
  have hn : nOf l ≠ 0 := by
    simpa [nOf, List.length_eq_zero] using hne
  obtain ⟨f0, rest, hfl⟩ := List.exists_cons_of_ne_nil hne
  have hall : ∀ f ∈ fairListOf l, f = f0 := by
    intro f hf
    exact hid f hf f0 (by rw [hfl]; exact List.mem_cons_self f0 rest)
  have hrep : fairListOf l = List.replicate (nOf l) f0 :=
    List.eq_replicate_of_mem hall
  obtain ⟨-, -, hvar, hmad, hjsds⟩ := pipeline_of_replicate l f0 hrep hn
  have hbd : bookmaker_disagreement l =
      ⟨some ((jsdsOf l).sum / ((jsdsOf l).length : ℝ)),
       jsdsOf l,
       (outcomesOf l).enum.map (fun io => (io.2, Real.sqrt ((varOf l io.1 : ℚ) : ℝ))),
       (outcomesOf l).enum.map (fun io => (io.2, ((madOf l io.1 : ℚ) : ℝ))),
       nOf l, outcomesOf l⟩ := by
    rw [bookmaker_disagreement, if_neg hn]
  refine ⟨?_, ?_, ?_⟩
  · rw [hbd]
    simp only [hjsds, List.sum_replicate, smul_zero, zero_div]
  · rw [hbd]
    intro kv hkv
    simp only [List.mem_map] at hkv
    obtain ⟨io, -, hio⟩ := hkv
    rw [← hio]
    simp [hvar io.1]
  · rw [hbd]
    intro kv hkv
    simp only [List.mem_map] at hkv
    obtain ⟨io, -, hio⟩ := hkv
    rw [← hio]
    simp [hmad io.1]

/-- C5. If all surviving bookmakers' fair distributions are identical — in
particular when exactly one non-empty fair distribution survives — then
`bookmaker_disagreement` returns `jsd_mean = 0.0` and every value of
`per_outcome_std` and `per_outcome_mad` is `0.0`. -/
theorem bookmaker_disagreement_zero_of_identical (l : List QuoteSet)
    (hne : fairListOf l ≠ [])
    (hid : ∀ f ∈ fairListOf l, ∀ g ∈ fairListOf l, f = g) :
    (bookmaker_disagreement l).jsd_mean = some 0 ∧
    (∀ kv ∈ (bookmaker_disagreement l).per_outcome_std, kv.2 = 0) ∧
    (∀ kv ∈ (bookmaker_disagreement l).per_outcome_mad, kv.2 = 0) :=
  bd_zero_of_identical_aux l hne hid

theorem bookmaker_disagreement_zero_of_identical_witness :
    (bookmaker_disagreement [[("A", PyNum.num 2), ("B", PyNum.num 2)]]).jsd_mean = some 0 ∧
    (∀ kv ∈ (bookmaker_disagreement
        [[("A", PyNum.num 2), ("B", PyNum.num 2)]]).per_outcome_std, kv.2 = 0) ∧
    (∀ kv ∈ (bookmaker_disagreement
        [[("A", PyNum.num 2), ("B", PyNum.num 2)]]).per_outcome_mad, kv.2 = 0) := by
  have hfl : fairListOf [[("A", PyNum.num 2), ("B", PyNum.num 2)]]
      = [[("A", 1/2), ("B", 1/2)]] := by
    simp [fairListOf, remove_vig_AB_two]
  apply bookmaker_disagreement_zero_of_identical
  · rw [hfl]
    simp
  · rw [hfl]
    simp

/-! ## The outcome union, padding, and row sums -/

theorem outcomesOf_sorted (l : List QuoteSet) : (outcomesOf l).Sorted (· ≤ ·) :=
  List.Pairwise.imp (fun h => (strLe_iff_le _ _).mp h)
    (List.sorted_insertionSort strLe _)

theorem outcomesOf_nodup (l : List QuoteSet) : (outcomesOf l).Nodup :=
  (List.perm_insertionSort strLe _).nodup_iff.mpr (List.nodup_dedup _)

theorem mem_outcomesOf (l : List QuoteSet) (o : String) :
    o ∈ outcomesOf l ↔ ∃ f ∈ fairListOf l, o ∈ f.map Prod.fst := by
  rw [outcomesOf, (List.perm_insertionSort strLe _).mem_iff, List.mem_dedup,
    List.mem_flatMap]

theorem mem_fairListOf (l : List QuoteSet) (f : FairDist) :
    f ∈ fairListOf l ↔ (∃ qs ∈ l, remove_vig qs = f) ∧ f ≠ [] := by
  rw [fairListOf, List.mem_filter, List.mem_map]
  simp [List.isEmpty_iff]

theorem remove_vig_eq_nil_of_raw (odds : QuoteSet) (h : rawOf odds = []) :
    remove_vig odds = [] := by
  rw [remove_vig]
  split
  · rfl
  · simp [h]

/-- The keys of `raw` form a sublist of the input keys. -/
theorem rawOf_keys_sublist (odds : QuoteSet) :
    ((rawOf odds).map Prod.fst).Sublist (odds.map Prod.fst) := by
  induction odds with
  | nil => simp [rawOf]
  | cons kv t ih =>
    rcases kv with ⟨k, v⟩
    cases v with
    | none => simpa [rawOf, List.filterMap_cons] using ih.cons k
    | nonNumeric => simpa [rawOf, List.filterMap_cons] using ih.cons k
    | num q =>
      by_cases hq : q ≤ 0
      · simpa [rawOf, List.filterMap_cons, hq] using ih.cons k
      · simpa [rawOf, List.filterMap_cons, hq] using ih.cons₂ k

theorem remove_vig_keys (odds : QuoteSet) (h : rawOf odds ≠ []) :
    (remove_vig odds).map Prod.fst = (rawOf odds).map Prod.fst := by
  rw [remove_vig_of_raw_ne_nil odds h, List.map_map]
  rfl

theorem remove_vig_keys_nodup (odds : QuoteSet) (h : (odds.map Prod.fst).Nodup) :
    ((remove_vig odds).map Prod.fst).Nodup := by
  by_cases hraw : rawOf odds = []
  · rw [remove_vig_eq_nil_of_raw odds hraw]
    simp
  · rw [remove_vig_keys odds hraw]
    exact (rawOf_keys_sublist odds).nodup h

/-- Dict semantics of padding: summing `fair.get(o, 0.0)` over a duplicate-free
list of outcomes containing every key of the (duplicate-free-keyed) dict
recovers exactly the sum of the dict's values — the inserted zeros change
nothing. -/
theorem lookup_padded_sum (f : List (String × ℚ)) (out : List String)
    (hf : (f.map Prod.fst).Nodup) (hout : out.Nodup)
    (hsub : ∀ k ∈ f.map Prod.fst, k ∈ out) :
    (out.map (fun o => ((f.lookup o).getD 0))).sum = (f.map Prod.snd).sum := by
  induction f generalizing out with
  | nil =>
    simp [List.lookup]
  | cons kv t ih =>
    obtain ⟨k, v⟩ := kv
    have hk_out : k ∈ out := hsub k (by simp)
    have hf' := List.nodup_cons.mp hf
    have hperm : out.Perm (k :: out.erase k) := List.perm_cons_erase hk_out
    have hsum1 : (out.map (fun o => ((((k, v) :: t).lookup o).getD 0))).sum
        = ((k :: out.erase k).map (fun o => ((((k, v) :: t).lookup o).getD 0))).sum :=
      (hperm.map _).sum_eq
    rw [hsum1, List.map_cons, List.sum_cons]
    have hk_lookup : (((k, v) :: t).lookup k).getD 0 = v := by
      simp [List.lookup]
    rw [hk_lookup]
    have hmapeq : (out.erase k).map (fun o => ((((k, v) :: t).lookup o).getD 0))
        = (out.erase k).map (fun o => ((t.lookup o).getD 0)) := by
      apply List.map_congr_left
      intro o ho
      have hok : o ≠ k := ((hout.mem_erase_iff).mp ho).1
      have : (o == k) = false := beq_eq_false_iff_ne.mpr hok
      simp [List.lookup, this]
    rw [hmapeq]
    rw [ih (out.erase k) hf'.2 (hout.erase k) ?_]
    · simp
    · intro k' hk'
      have hk'ne : k' ≠ k := by
        intro hcon
        exact hf'.1 (hcon ▸ hk')
      exact (hout.mem_erase_iff).mpr ⟨hk'ne, hsub k' (by simp [hk'])⟩

/-- Every row of the matrix sums to exactly `1` (duplicate-free keys assumed,
as for Python dicts): the zero-padding for missing outcomes does not lower
the row sum. -/
theorem matrix_row_sum_one (l : List QuoteSet)
    (hkeys : ∀ qs ∈ l, ((qs.map Prod.fst).Nodup)) :
    ∀ row ∈ matrixOf l, row.sum = 1 := by
  intro row hrow
  rw [matrixOf] at hrow
  rcases List.mem_map.mp hrow with ⟨f, hf, hrow'⟩
  rcases (mem_fairListOf l f).mp hf with ⟨⟨qs, hqs, hfq⟩, hfne⟩
  have hraw : rawOf qs ≠ [] := by
    intro hcon
    exact hfne (hfq ▸ remove_vig_eq_nil_of_raw qs hcon)
  have hfnodup : (f.map Prod.fst).Nodup :=
    hfq ▸ remove_vig_keys_nodup qs (hkeys qs hqs)
  have hsub : ∀ k ∈ f.map Prod.fst, k ∈ outcomesOf l := by
    intro k hk
    exact (mem_outcomesOf l k).mpr ⟨f, hf, hk⟩
  rw [← hrow']
  rw [lookup_padded_sum f (outcomesOf l) hfnodup (outcomesOf_nodup l) hsub]
  rw [← hfq]
  exact remove_vig_sum_eq_one qs hraw

/-- Concrete evaluation helper: the symmetric three-way quote set de-vigs to
the uniform three-outcome distribution. -/
theorem remove_vig_ABC_three :
    remove_vig [("A", PyNum.num 3), ("B", PyNum.num 3), ("C", PyNum.num 3)]
      = [("A", 1/3), ("B", 1/3), ("C", 1/3)] := by
  norm_num [remove_vig, rawOf, List.filterMap]
  simp

/-- C7 counterexample.  Two bookmakers, the first not quoting `"C"`: the
first row of the matrix is padded with `0.0` in the `"C"` column, yet it sums
to exactly `1` — refuting "a padded row may sum to less than 1". -/
theorem padding_keeps_row_sum_cx :
    matrixOf [[("A", PyNum.num 2), ("B", PyNum.num 2)],
        [("A", PyNum.num 3), ("B", PyNum.num 3), ("C", PyNum.num 3)]]
      = [[1/2, 1/2, 0], [1/3, 1/3, 1/3]] ∧
    ([(1:ℚ)/2, 1/2, 0]).sum = 1 := by
  have hfl : fairListOf [[("A", PyNum.num 2), ("B", PyNum.num 2)],
      [("A", PyNum.num 3), ("B", PyNum.num 3), ("C", PyNum.num 3)]]
      = [[("A", 1/2), ("B", 1/2)], [("A", 1/3), ("B", 1/3), ("C", 1/3)]] := by
    simp [fairListOf, remove_vig_AB_two, remove_vig_ABC_three]
  have hout : outcomesOf [[("A", PyNum.num 2), ("B", PyNum.num 2)],
      [("A", PyNum.num 3), ("B", PyNum.num 3), ("C", PyNum.num 3)]]
      = ["A", "B", "C"] := by
    rw [outcomesOf, hfl]
    decide
  constructor
  · rw [matrixOf, hfl, hout]
    simp [List.lookup]
  · norm_num

/-- C7 amended.  `outcomes` is the sorted union of the outcome labels of the
surviving fair distributions, and each bookmaker's row is its fair
distribution looked up over `outcomes` with `0.0` for a missing outcome, used
as-is with no renormalization.  Contrary to the claim's parenthetical, a
padded row cannot sum to less than 1: with duplicate-free keys (dict
semantics) every row sums to exactly 1. -/
theorem outcomes_sorted_union_and_padding (l : List QuoteSet)
    (hkeys : ∀ qs ∈ l, ((qs.map Prod.fst).Nodup)) :
    ((bookmaker_disagreement l).outcomes).Sorted (· ≤ ·) ∧
    (∀ o, o ∈ (bookmaker_disagreement l).outcomes ↔
        ∃ f ∈ fairListOf l, o ∈ f.map Prod.fst) ∧
    matrixOf l = (fairListOf l).map (fun f =>
        (outcomesOf l).map (fun o => ((f.lookup o).getD 0))) ∧
    (∀ row ∈ matrixOf l, row.sum = 1) := by
  by_cases hn : nOf l = 0
  · have hbd : (bookmaker_disagreement l).outcomes = [] := by
      rw [bookmaker_disagreement, if_pos hn]
    have hfl : fairListOf l = [] := List.length_eq_zero.mp hn
    refine ⟨by rw [hbd]; exact List.sorted_nil, ?_, rfl, matrix_row_sum_one l hkeys⟩
    intro o
    rw [hbd, hfl]
    simp
  · have hbd : (bookmaker_disagreement l).outcomes = outcomesOf l := by
      rw [bookmaker_disagreement, if_neg hn]
    rw [hbd]
    exact ⟨outcomesOf_sorted l, mem_outcomesOf l, rfl, matrix_row_sum_one l hkeys⟩

theorem outcomes_sorted_union_and_padding_witness :
    ((bookmaker_disagreement [[("A", PyNum.num 2), ("B", PyNum.num 2)],
        [("A", PyNum.num 3), ("B", PyNum.num 3), ("C", PyNum.num 3)]]).outcomes).Sorted
        (· ≤ ·) ∧
    (∀ o, o ∈ (bookmaker_disagreement [[("A", PyNum.num 2), ("B", PyNum.num 2)],
        [("A", PyNum.num 3), ("B", PyNum.num 3), ("C", PyNum.num 3)]]).outcomes ↔
        ∃ f ∈ fairListOf [[("A", PyNum.num 2), ("B", PyNum.num 2)],
        [("A", PyNum.num 3), ("B", PyNum.num 3), ("C", PyNum.num 3)]], o ∈ f.map Prod.fst) ∧
    matrixOf [[("A", PyNum.num 2), ("B", PyNum.num 2)],
        [("A", PyNum.num 3), ("B", PyNum.num 3), ("C", PyNum.num 3)]]
      = (fairListOf [[("A", PyNum.num 2), ("B", PyNum.num 2)],
        [("A", PyNum.num 3), ("B", PyNum.num 3), ("C", PyNum.num 3)]]).map (fun f =>
        (outcomesOf [[("A", PyNum.num 2), ("B", PyNum.num 2)],
        [("A", PyNum.num 3), ("B", PyNum.num 3), ("C", PyNum.num 3)]]).map
          (fun o => ((f.lookup o).getD 0))) ∧
    (∀ row ∈ matrixOf [[("A", PyNum.num 2), ("B", PyNum.num 2)],
        [("A", PyNum.num 3), ("B", PyNum.num 3), ("C", PyNum.num 3)]], row.sum = 1) := by
  apply outcomes_sorted_union_and_padding
  decide

/-! ## Two-bookmaker evaluation of the scorer -/

theorem lookup_mem {β : Type} (f : List (String × β)) (o : String) (v : β)
    (h : f.lookup o = some v) : (o, v) ∈ f := by
  induction f with
  | nil => simp [List.lookup] at h
  | cons kv t ih =>
    obtain ⟨k, b⟩ := kv
    rw [List.lookup_cons] at h
    cases hok : (o == k) with
    | true =>
      rw [hok] at h
      simp only [Option.some.injEq] at h
      have hk : o = k := beq_iff_eq.mp hok
      rw [← hk, ← h]
      exact List.mem_cons_self _ _
    | false =>
      rw [hok] at h
      exact List.mem_cons_of_mem _ (ih h)

/-- Every probability in a fair distribution is positive. -/
theorem remove_vig_values_pos (odds : QuoteSet) :
    ∀ kv ∈ remove_vig odds, 0 < kv.2 := by
  intro kv hkv
  by_cases hraw : rawOf odds = []
  · rw [remove_vig_eq_nil_of_raw odds hraw] at hkv
    simp at hkv
  · rw [remove_vig_of_raw_ne_nil odds hraw] at hkv
    rcases List.mem_map.mp hkv with ⟨kw, hkw, hkv'⟩
    have hs : 0 < ((rawOf odds).map Prod.snd).sum := by
      apply List.sum_pos
      · intro x hx
        rcases List.mem_map.mp hx with ⟨kv', hkv'', hx'⟩
        exact hx' ▸ rawOf_pos odds kv' hkv''
      · simpa using hraw
    rw [← hkv']
    exact div_pos (rawOf_pos odds kw hkw) hs

/-- Every entry of the matrix is nonnegative: it is either a fair probability
or the `0.0` padding. -/
theorem matrix_entries_nonneg (l : List QuoteSet) :
    ∀ row ∈ matrixOf l, ∀ x ∈ row, 0 ≤ x := by
  intro row hrow x hx
  rw [matrixOf] at hrow
  rcases List.mem_map.mp hrow with ⟨f, hf, hrow'⟩
  rw [← hrow'] at hx
  rcases List.mem_map.mp hx with ⟨o, _, hx'⟩
  rcases (mem_fairListOf l f).mp hf with ⟨⟨qs, _, hfq⟩, -⟩
  cases hlook : f.lookup o with
  | none =>
    rw [hlook] at hx'
    rw [← hx']
    rfl
  | some v =>
    rw [hlook] at hx'
    rw [← hx']
    have hmem : (o, v) ∈ f := lookup_mem f o v hlook
    have := remove_vig_values_pos qs (o, v) (hfq ▸ hmem)
    exact this.le

theorem fairList_pair (qs1 qs2 : QuoteSet)
    (h1 : remove_vig qs1 ≠ []) (h2 : remove_vig qs2 ≠ []) :
    fairListOf [qs1, qs2] = [remove_vig qs1, remove_vig qs2] := by
  have b1 : (!(remove_vig qs1).isEmpty) = true := by
    simpa [List.isEmpty_iff] using h1
  have b2 : (!(remove_vig qs2).isEmpty) = true := by
    simpa [List.isEmpty_iff] using h2
  rw [fairListOf, List.map_cons, List.map_cons, List.map_nil]
  simp [List.filter_cons, b1, b2]

/-- For two surviving bookmakers with matrix rows `[a, b]` and `[c, d]`, the
scorer's `jsd_mean` is the average of the two JSDs against the consensus
`[(a+c)/2, (b+d)/2]`. -/
theorem bd_eval_two (qs1 qs2 : QuoteSet)
    (h1 : remove_vig qs1 ≠ []) (h2 : remove_vig qs2 ≠ []) (a b c d : ℚ)
    (hmat : matrixOf [qs1, qs2] = [[a, b], [c, d]]) :
    (bookmaker_disagreement [qs1, qs2]).jsd_mean =
      some ((jensen_shannon [(a : ℝ), (b : ℝ)]
              [((a : ℝ) + (c : ℝ)) / 2, ((b : ℝ) + (d : ℝ)) / 2] 2
            + jensen_shannon [(c : ℝ), (d : ℝ)]
              [((a : ℝ) + (c : ℝ)) / 2, ((b : ℝ) + (d : ℝ)) / 2] 2) / 2) := by
  have hfl := fairList_pair qs1 qs2 h1 h2
  have hn : nOf [qs1, qs2] = 2 := by
    rw [nOf, hfl]
    rfl
  have hk : (outcomesOf [qs1, qs2]).length = 2 := by
    have hmat' := hmat
    rw [matrixOf, hfl, List.map_cons, List.map_cons, List.map_nil] at hmat'
    simp only [List.cons.injEq, and_true] at hmat'
    have := congrArg List.length hmat'.1
    simpa using this
  have hcol0 : colOf [qs1, qs2] 0 = [a, c] := by
    rw [colOf, hmat]
    simp
  have hcol1 : colOf [qs1, qs2] 1 = [b, d] := by
    rw [colOf, hmat]
    simp
  have hmean : meanDistOf [qs1, qs2] = [(a + c) / 2, (b + d) / 2] := by
    rw [meanDistOf, hk, hn]
    simp [List.range_succ, hcol0, hcol1]
  have hjsds : jsdsOf [qs1, qs2] =
      [jensen_shannon [(a : ℝ), (b : ℝ)]
          [((a : ℝ) + (c : ℝ)) / 2, ((b : ℝ) + (d : ℝ)) / 2] 2,
       jensen_shannon [(c : ℝ), (d : ℝ)]
          [((a : ℝ) + (c : ℝ)) / 2, ((b : ℝ) + (d : ℝ)) / 2] 2] := by
    rw [jsdsOf, hmat, hmean]
    simp only [List.map_cons, List.map_nil, Rat.cast_div, Rat.cast_add, Rat.cast_ofNat]
  have hnne : nOf [qs1, qs2] ≠ 0 := by
    rw [hn]
    exact two_ne_zero
  rw [bookmaker_disagreement, if_neg hnne]
  simp only [hjsds]
  norm_num

/-- Two identical matrix rows give `jsd_mean = 0`. -/
theorem bd_pair_zero_aux (qs1 qs2 : QuoteSet)
    (h1 : remove_vig qs1 ≠ []) (h2 : remove_vig qs2 ≠ []) (a b : ℚ)
    (hmat : matrixOf [qs1, qs2] = [[a, b], [a, b]]) :
    (bookmaker_disagreement [qs1, qs2]).jsd_mean = some 0 := by
  rw [bd_eval_two qs1 qs2 h1 h2 a b a b hmat]
  rw [show ((a : ℝ) + (a : ℝ)) / 2 = (a : ℝ) by ring,
    show ((b : ℝ) + (b : ℝ)) / 2 = (b : ℝ) by ring, jensen_shannon_self]
  norm_num

/-- Two different matrix rows give a strictly positive `jsd_mean`. -/
theorem bd_pair_pos_aux (qs1 qs2 : QuoteSet)
    (h1 : remove_vig qs1 ≠ []) (h2 : remove_vig qs2 ≠ []) (a b c d : ℚ)
    (hmat : matrixOf [qs1, qs2] = [[a, b], [c, d]])
    (hne : a ≠ c ∨ b ≠ d) :
    ∃ v, (bookmaker_disagreement [qs1, qs2]).jsd_mean = some v ∧ 0 < v := by
  have hnonneg := matrix_entries_nonneg [qs1, qs2]
  have ha : 0 ≤ a := by
    apply hnonneg [a, b] (by rw [hmat]; simp)
    simp
  have hb : 0 ≤ b := by
    apply hnonneg [a, b] (by rw [hmat]; simp)
    simp
  have hc : 0 ≤ c := by
    apply hnonneg [c, d] (by rw [hmat]; simp)
    simp
  have hd : 0 ≤ d := by
    apply hnonneg [c, d] (by rw [hmat]; simp)
    simp
  refine ⟨_, bd_eval_two qs1 qs2 h1 h2 a b c d hmat, ?_⟩
  have hne' : (a : ℝ) ≠ ((a : ℝ) + (c : ℝ)) / 2 ∨ (b : ℝ) ≠ ((b : ℝ) + (d : ℝ)) / 2 := by
    rcases hne with h | h
    · left
      intro hcon
      apply h
      have : (a : ℝ) = (c : ℝ) := by linarith
      exact_mod_cast this
    · right
      intro hcon
      apply h
      have : (b : ℝ) = (d : ℝ) := by linarith
      exact_mod_cast this
  have j1 : 0 < jensen_shannon [(a : ℝ), (b : ℝ)]
      [((a : ℝ) + (c : ℝ)) / 2, ((b : ℝ) + (d : ℝ)) / 2] 2 := by
    apply jensen_shannon_pos_two
    · exact_mod_cast ha
    · exact_mod_cast hb
    · have : (0 : ℝ) ≤ (a : ℝ) + (c : ℝ) := by
        have := add_nonneg ha hc
        exact_mod_cast this
      linarith
    · have : (0 : ℝ) ≤ (b : ℝ) + (d : ℝ) := by
        have := add_nonneg hb hd
        exact_mod_cast this
      linarith
    · exact hne'
  have j2 : 0 ≤ jensen_shannon [(c : ℝ), (d : ℝ)]
      [((a : ℝ) + (c : ℝ)) / 2, ((b : ℝ) + (d : ℝ)) / 2] 2 := by
    apply jensen_shannon_nonneg_two
    · exact_mod_cast hc
    · exact_mod_cast hd
    · have : (0 : ℝ) ≤ (a : ℝ) + (c : ℝ) := by
        have := add_nonneg ha hc
        exact_mod_cast this
      linarith
    · have : (0 : ℝ) ≤ (b : ℝ) + (d : ℝ) := by
        have := add_nonneg hb hd
        exact_mod_cast this
      linarith
  linarith

/-- Concrete evaluation helper: bookmaker quoting `{A: 2.0, B: 2.2}`
(`2.2 = 11/5`) de-vigs to `{A: 11/21, B: 10/21}`. -/
theorem remove_vig_AB_spread :
    remove_vig [("A", PyNum.num 2), ("B", PyNum.num (11/5))]
      = [("A", 11/21), ("B", 10/21)] := by
  norm_num [remove_vig, rawOf, List.filterMap]
  simp

/-- Concrete evaluation helper: bookmaker quoting `{A: 2.2, B: 2.2}` de-vigs
to the uniform distribution. -/
theorem remove_vig_AB_eleven :
    remove_vig [("A", PyNum.num (11/5)), ("B", PyNum.num (11/5))]
      = [("A", 1/2), ("B", 1/2)] := by
  norm_num [remove_vig, rawOf, List.filterMap]
  simp

/-- Matrix of the "before" market: bookmaker 1 quotes `{A: 2.0, B: 2.0}`,
bookmaker 2 quotes `{A: 2.0, B: 2.2}` (spread of the `A` prices is `0`). -/
theorem matrix_ex_before :
    matrixOf [[("A", PyNum.num 2), ("B", PyNum.num 2)],
        [("A", PyNum.num 2), ("B", PyNum.num (11/5))]]
      = [[1/2, 1/2], [11/21, 10/21]] := by
  have hfl : fairListOf [[("A", PyNum.num 2), ("B", PyNum.num 2)],
      [("A", PyNum.num 2), ("B", PyNum.num (11/5))]]
      = [[("A", 1/2), ("B", 1/2)], [("A", 11/21), ("B", 10/21)]] := by
    simp [fairListOf, remove_vig_AB_two, remove_vig_AB_spread]
  have hout : outcomesOf [[("A", PyNum.num 2), ("B", PyNum.num 2)],
      [("A", PyNum.num 2), ("B", PyNum.num (11/5))]] = ["A", "B"] := by
    rw [outcomesOf, hfl]
    decide
  rw [matrixOf, hfl, hout]
  simp [List.lookup]

/-- Matrix of the "after" market: bookmaker 2's `A` price moved from `2.0` to
`2.2`, increasing the spread of the `A` prices from `0` to `0.2` with every
other price unchanged. -/
theorem matrix_ex_after :
    matrixOf [[("A", PyNum.num 2), ("B", PyNum.num 2)],
        [("A", PyNum.num (11/5)), ("B", PyNum.num (11/5))]]
      = [[1/2, 1/2], [1/2, 1/2]] := by
  have hfl : fairListOf [[("A", PyNum.num 2), ("B", PyNum.num 2)],
      [("A", PyNum.num (11/5)), ("B", PyNum.num (11/5))]]
      = [[("A", 1/2), ("B", 1/2)], [("A", 1/2), ("B", 1/2)]] := by
    simp [fairListOf, remove_vig_AB_two, remove_vig_AB_eleven]
  have hout : outcomesOf [[("A", PyNum.num 2), ("B", PyNum.num 2)],
      [("A", PyNum.num (11/5)), ("B", PyNum.num (11/5))]] = ["A", "B"] := by
    rw [outcomesOf, hfl]
    decide
  rw [matrixOf, hfl, hout]
  simp [List.lookup]

/-- C8 counterexample.  Against bookmaker 1 quoting `{A: 2.0, B: 2.0}`,
moving bookmaker 2 from `{A: 2.0, B: 2.2}` to `{A: 2.2, B: 2.2}` increases
the spread of the quoted `A` prices from `0` to `0.2` while holding every
other price fixed — yet `jsd_mean` strictly decreases, from a positive value
to `0`: the price change makes the two fair distributions identical. -/
theorem spread_monotonicity_cx :
    (bookmaker_disagreement [[("A", PyNum.num 2), ("B", PyNum.num 2)],
        [("A", PyNum.num (11/5)), ("B", PyNum.num (11/5))]]).jsd_mean = some 0 ∧
    0 < ((bookmaker_disagreement [[("A", PyNum.num 2), ("B", PyNum.num 2)],
        [("A", PyNum.num 2), ("B", PyNum.num (11/5))]]).jsd_mean).getD 0 := by
  constructor
  · apply bd_pair_zero_aux _ _ _ _ (1/2) (1/2) matrix_ex_after
    · simp [remove_vig_AB_two]
    · simp [remove_vig_AB_eleven]
  · have h1 : remove_vig [("A", PyNum.num 2), ("B", PyNum.num 2)] ≠ [] := by
      simp [remove_vig_AB_two]
    have h2 : remove_vig [("A", PyNum.num 2), ("B", PyNum.num (11/5))] ≠ [] := by
      simp [remove_vig_AB_spread]
    obtain ⟨v, hv, hvpos⟩ := bd_pair_pos_aux _ _ h1 h2 (1/2) (1/2) (11/21) (10/21)
      matrix_ex_before (Or.inl (by norm_num))
    rw [hv]
    simpa using hvpos

/-- C8 amended.  Increasing the spread of the quoted prices for one outcome
can strictly decrease `jsd_mean` (see the counterexample): a price move can
bring the bookmakers' *fair distributions* closer together.  What does hold
is monotonicity in the fair distributions themselves: for two surviving
bookmakers, `jsd_mean` is `0` when their matrix rows coincide and strictly
positive when the rows differ, so `jsd_mean` cannot decrease when the rows go
from agreeing to disagreeing. -/
theorem bd_pair_agreement_dichotomy (qs1 qs2 : QuoteSet)
    (h1 : remove_vig qs1 ≠ []) (h2 : remove_vig qs2 ≠ [])
    (a b c d : ℚ) (hmat : matrixOf [qs1, qs2] = [[a, b], [c, d]]) :
    ((a = c ∧ b = d) → (bookmaker_disagreement [qs1, qs2]).jsd_mean = some 0) ∧
    ((a ≠ c ∨ b ≠ d) →
      ∃ v, (bookmaker_disagreement [qs1, qs2]).jsd_mean = some v ∧ 0 < v) := by
  constructor
  · rintro ⟨rfl, rfl⟩
    exact bd_pair_zero_aux qs1 qs2 h1 h2 a b hmat
  · intro hne
    exact bd_pair_pos_aux qs1 qs2 h1 h2 a b c d hmat hne

theorem bd_pair_agreement_dichotomy_witness :
    (((1 : ℚ)/2 = 11/21 ∧ (1 : ℚ)/2 = 10/21) →
      (bookmaker_disagreement [[("A", PyNum.num 2), ("B", PyNum.num 2)],
        [("A", PyNum.num 2), ("B", PyNum.num (11/5))]]).jsd_mean = some 0) ∧
    (((1 : ℚ)/2 ≠ 11/21 ∨ (1 : ℚ)/2 ≠ 10/21) →
      ∃ v, (bookmaker_disagreement [[("A", PyNum.num 2), ("B", PyNum.num 2)],
        [("A", PyNum.num 2), ("B", PyNum.num (11/5))]]).jsd_mean = some v ∧ 0 < v) := by
  apply bd_pair_agreement_dichotomy
  · simp [remove_vig_AB_two]
  · simp [remove_vig_AB_spread]
  · exact matrix_ex_before

/-! ## The fair-pairing entry point -/

/-- C10.  The claim asserts `compute_fair_bdi_for_group` returns `None`
whenever fewer than two common bookmakers yield a non-empty fair
distribution.  The code contradicts it (and its own inline comment
"`remove_vig` returns `{}` on bad input"): with Over `{b1: 2.0, b2: -1.0}`
and Under `{b1: -1.0, b2: -1.0}` both bookmakers are common, only `b1` yields
a non-empty fair distribution (`{'over': 1.0}`, second conjunct; `b2` yields
`{}`, third conjunct), so the claim demands `None`; but the guard only
checks `'over' in fair`, and `fair['under']` raises `KeyError`
(`Except.error ()`). -/
theorem compute_fair_bdi_keyerror :
    compute_fair_bdi_for_group [("b1", 2), ("b2", -1)] [("b1", -1), ("b2", -1)]
      = Except.error () ∧
    remove_vig [("over", PyNum.num 2), ("under", PyNum.num (-1))] = [("over", 1)] ∧
    remove_vig [("over", PyNum.num (-1)), ("under", PyNum.num (-1))] = [] := by
  have hrv1 : remove_vig [("over", PyNum.num 2), ("under", PyNum.num (-1))]
      = [("over", 1)] := by
    norm_num [remove_vig, rawOf, List.filterMap]
    simp
  have hrv2 : remove_vig [("over", PyNum.num (-1)), ("under", PyNum.num (-1))] = [] := by
    norm_num [remove_vig, rawOf, List.filterMap]
  refine ⟨?_, hrv1, hrv2⟩
  rw [compute_fair_bdi_for_group]
  have hcommon : List.filter
      (fun kv => (([("b1", (-1 : ℚ)), ("b2", -1)].lookup kv.1).isSome))
      [("b1", (2 : ℚ)), ("b2", -1)] = [("b1", 2), ("b2", -1)] := by
    simp [List.filter_cons, List.lookup]
  rw [hcommon]
  rw [if_neg (by norm_num)]
  have hstep : fairPairStep [("b1", (-1 : ℚ)), ("b2", -1)] [] ("b1", (2 : ℚ))
      = Except.error () := by
    rw [fairPairStep]
    have hget : (([("b1", (-1 : ℚ)), ("b2", -1)].lookup "b1").getD 0) = -1 := by
      simp [List.lookup]
    rw [hget, hrv1]
    simp [List.lookup]
  rw [List.foldlM_cons, hstep]
  rfl

/-! ## The fair-pairing refinement -/

theorem remove_vig_pair (o u : ℚ) (ho : 0 < o) (hu : 0 < u) :
    remove_vig [("over", PyNum.num o), ("under", PyNum.num u)]
      = [("over", (1 / o) / (1 / o + 1 / u)), ("under", (1 / u) / (1 / o + 1 / u))] := by
  have hraw : rawOf [("over", PyNum.num o), ("under", PyNum.num u)]
      = [("over", 1 / o), ("under", 1 / u)] := by
    simp [rawOf, List.filterMap, ho.not_le, hu.not_le]
  rw [remove_vig_of_raw_ne_nil _ (by rw [hraw]; simp), hraw]
  simp

/-- The union of the keys of any non-empty collection of `over`/`under`
dicts dedups to `["over", "under"]`. -/
theorem dedup_keys_pair (fl : List FairDist) (hne : fl ≠ [])
    (h : ∀ f ∈ fl, f.map Prod.fst = ["over", "under"]) :
    ((fl.flatMap (fun f => f.map Prod.fst)).dedup) = ["over", "under"] := by
  induction fl with
  | nil => exact absurd rfl hne
  | cons f t ih =>
    rw [List.flatMap_cons, h f (List.mem_cons_self f t)]
    by_cases ht : t = []
    · subst ht
      decide
    · have iht := ih ht (fun f' hf' => h f' (List.mem_cons_of_mem f hf'))
      obtain ⟨f', hf'⟩ := List.exists_mem_of_ne_nil t ht
      have hover : "over" ∈ t.flatMap (fun f => f.map Prod.fst) :=
        List.mem_flatMap.mpr ⟨f', hf', by rw [h f' (List.mem_cons_of_mem f hf')]; simp⟩
      have hunder : "under" ∈ t.flatMap (fun f => f.map Prod.fst) :=
        List.mem_flatMap.mpr ⟨f', hf', by rw [h f' (List.mem_cons_of_mem f hf')]; simp⟩
      rw [List.cons_append, List.singleton_append]
      rw [List.dedup_cons_of_mem (List.mem_cons_of_mem _ hover),
        List.dedup_cons_of_mem hunder, iht]

/-- The whole-market scorer on per-bookmaker Over/Under pair quote sets (all
prices valid), written in closed form. -/
theorem scorer_on_pairs (ps : List (ℚ × ℚ))
    (hpos : ∀ p ∈ ps, 0 < p.1 ∧ 0 < p.2) (hne : ps ≠ []) :
    bookmaker_disagreement (ps.map (fun p =>
        ([("over", PyNum.num p.1), ("under", PyNum.num p.2)] : QuoteSet)))
      = ⟨some ((pairJsds ps).sum / (ps.length : ℝ)),
         pairJsds ps,
         [("over", Real.sqrt ((overVar ps : ℚ) : ℝ)),
          ("under", Real.sqrt ((underVar ps : ℚ) : ℝ))],
         [("over", ((overMad ps : ℚ) : ℝ)), ("under", ((underMad ps : ℚ) : ℝ))],
         ps.length, ["over", "under"]⟩ := by
  set l := ps.map (fun p =>
    ([("over", PyNum.num p.1), ("under", PyNum.num p.2)] : QuoteSet)) with hl
  have hfl : fairListOf l = ps.map (fun p =>
      ([("over", (pairFair p).1), ("under", (pairFair p).2)] : FairDist)) := by
    rw [fairListOf, hl, List.map_map]
    have hcong : ∀ p ∈ ps, (remove_vig ∘ fun p =>
        ([("over", PyNum.num p.1), ("under", PyNum.num p.2)] : QuoteSet)) p
        = [("over", (pairFair p).1), ("under", (pairFair p).2)] := by
      intro p hp
      have hpp := hpos p hp
      simp only [Function.comp]
      rw [remove_vig_pair p.1 p.2 hpp.1 hpp.2]
      rfl
    rw [List.map_congr_left hcong]
    apply List.filter_eq_self.mpr
    intro f hf
    rcases List.mem_map.mp hf with ⟨p, _, hp⟩
    rw [← hp]
    simp
  have hn : nOf l = ps.length := by
    rw [nOf, hfl, List.length_map]
  have hnne : nOf l ≠ 0 := by
    rw [hn]
    intro hcon
    exact hne (List.length_eq_zero.mp hcon)
  have hkeys : ∀ f ∈ fairListOf l, f.map Prod.fst = ["over", "under"] := by
    intro f hf
    rw [hfl] at hf
    rcases List.mem_map.mp hf with ⟨p, _, hp⟩
    rw [← hp]
    rfl
  have hout : outcomesOf l = ["over", "under"] := by
    rw [outcomesOf, dedup_keys_pair (fairListOf l) ?_ hkeys]
    · decide
    · rw [hfl]
      simpa using hne
  have hmat : matrixOf l = ps.map (fun p => [(pairFair p).1, (pairFair p).2]) := by
    rw [matrixOf, hfl, hout, List.map_map]
    apply List.map_congr_left
    intro p _
    simp [List.lookup]
  have hcol0 : colOf l 0 = overProbs ps := by
    rw [colOf, hmat, List.map_map, overProbs]
    apply List.map_congr_left
    intro p _
    rfl
  have hcol1 : colOf l 1 = underProbs ps := by
    rw [colOf, hmat, List.map_map, underProbs]
    apply List.map_congr_left
    intro p _
    rfl
  have hmean : meanDistOf l = [overMean ps, underMean ps] := by
    rw [meanDistOf, hout]
    show (List.range 2).map _ = _
    rw [show List.range 2 = [0, 1] from rfl]
    rw [List.map_cons, List.map_cons, List.map_nil]
    rw [hcol0, hcol1, hn, overMean, underMean]
  have hjsds : jsdsOf l = pairJsds ps := by
    rw [jsdsOf, hmat, hmean, List.map_map, pairJsds]
    apply List.map_congr_left
    intro p _
    rfl
  have hvar0 : varOf l 0 = overVar ps := by
    rw [varOf, meanValOf, hcol0, hn, overVar, overMean]
  have hmad0 : madOf l 0 = overMad ps := by
    rw [madOf, meanValOf, hcol0, hn, overMad, overMean]
  have hvar1 : varOf l 1 = underVar ps := by
    rw [varOf, meanValOf, hcol1, hn, underVar, underMean]
  have hmad1 : madOf l 1 = underMad ps := by
    rw [madOf, meanValOf, hcol1, hn, underMad, underMean]
  have henum : (["over", "under"] : List String).enum = [(0, "over"), (1, "under")] := rfl
  have hlen : (pairJsds ps).length = ps.length := by
    rw [pairJsds, List.length_map]
  have hstd : (outcomesOf l).enum.map
      (fun io => (io.2, Real.sqrt ((varOf l io.1 : ℚ) : ℝ)))
      = [("over", Real.sqrt ((overVar ps : ℚ) : ℝ)),
         ("under", Real.sqrt ((underVar ps : ℚ) : ℝ))] := by
    rw [hout, henum, List.map_cons, List.map_cons, List.map_nil]
    show [("over", Real.sqrt ((varOf l 0 : ℚ) : ℝ)),
      ("under", Real.sqrt ((varOf l 1 : ℚ) : ℝ))] = _
    rw [hvar0, hvar1]
  have hmadf : (outcomesOf l).enum.map
      (fun io => (io.2, ((madOf l io.1 : ℚ) : ℝ)))
      = [("over", ((overMad ps : ℚ) : ℝ)), ("under", ((underMad ps : ℚ) : ℝ))] := by
    rw [hout, henum, List.map_cons, List.map_cons, List.map_nil]
    show [("over", ((madOf l 0 : ℚ) : ℝ)), ("under", ((madOf l 1 : ℚ) : ℝ))] = _
    rw [hmad0, hmad1]
  rw [bookmaker_disagreement, if_neg hnne, hjsds, hlen, hstd, hmadf, hn, hout]

/-- With valid prices throughout, the `continue`/`KeyError` branches of the
loop are never taken: the fold collects every common bookmaker's fair pair in
order. -/
theorem foldlM_fairPairStep (under_odds : List (String × ℚ))
    (common : List (String × ℚ))
    (h : ∀ kv ∈ common, 0 < kv.2 ∧ 0 < (under_odds.lookup kv.1).getD 0)
    (acc : List (ℚ × ℚ)) :
    common.foldlM (fairPairStep under_odds) acc
      = Except.ok (acc ++ common.map (fun kv =>
          pairFair (kv.2, (under_odds.lookup kv.1).getD 0))) := by
  induction common generalizing acc with
  | nil =>
    rw [List.foldlM_nil, List.map_nil, List.append_nil]
    rfl
  | cons kv t ih =>
    have hkv := h kv (List.mem_cons_self kv t)
    rw [List.foldlM_cons]
    have hstep : fairPairStep under_odds acc kv
        = Except.ok (acc ++ [pairFair (kv.2, (under_odds.lookup kv.1).getD 0)]) := by
      rw [fairPairStep]
      rw [remove_vig_pair _ _ hkv.1 hkv.2]
      simp [List.lookup, pairFair]
    rw [hstep]
    show t.foldlM (fairPairStep under_odds)
      (acc ++ [pairFair (kv.2, (under_odds.lookup kv.1).getD 0)]) = _
    rw [ih (fun kv' hkv' => h kv' (List.mem_cons_of_mem kv hkv'))]
    rw [List.append_assoc, List.singleton_append, List.map_cons]

/-- The fair-pairing tool on all-valid prices with at least two common
bookmakers, written in the same closed form as `scorer_on_pairs`. -/
theorem tool_on_common (over_odds under_odds : List (String × ℚ))
    (hov : ∀ kv ∈ over_odds, 0 < kv.2)
    (hun : ∀ kv ∈ under_odds, 0 < kv.2)
    (hc : 2 ≤ (over_odds.filter (fun kv => (under_odds.lookup kv.1).isSome)).length) :
    compute_fair_bdi_for_group over_odds under_odds
      = Except.ok (some
          ⟨(pairJsds (commonPairs over_odds under_odds)).sum
              / ((commonPairs over_odds under_odds).length : ℝ),
           (commonPairs over_odds under_odds).length,
           Real.sqrt ((overVar (commonPairs over_odds under_odds) : ℚ) : ℝ),
           ((overMad (commonPairs over_odds under_odds) : ℚ) : ℝ)⟩) := by
  have hpos : ∀ kv ∈ over_odds.filter (fun kv => (under_odds.lookup kv.1).isSome),
      0 < kv.2 ∧ 0 < (under_odds.lookup kv.1).getD 0 := by
    intro kv hkv
    have hm := List.mem_filter.mp hkv
    refine ⟨hov kv hm.1, ?_⟩
    have hs : (under_odds.lookup kv.1).isSome = true := hm.2
    obtain ⟨v, hv⟩ := Option.isSome_iff_exists.mp hs
    have := hun (kv.1, v) (lookup_mem under_odds kv.1 v hv)
    rw [hv]
    simpa using this
  have hfold : (over_odds.filter
        (fun kv => (under_odds.lookup kv.1).isSome)).foldlM
        (fairPairStep under_odds) []
      = Except.ok ([] ++ (commonPairs over_odds under_odds).map pairFair) := by
    rw [foldlM_fairPairStep under_odds _ hpos [], commonPairs, List.map_map]
    rfl
  rw [compute_fair_bdi_for_group, if_neg (not_lt.mpr hc), hfold]
  split
  · rename_i e heq
    simp at heq
  · rename_i bd heq
    have hbd : bd = (commonPairs over_odds under_odds).map pairFair := by
      simp at heq
      exact heq.symm
    subst hbd
    rw [if_neg (by
      rw [List.length_map, commonPairs, List.length_map]
      exact not_lt.mpr hc)]
    simp only [List.map_map, pairJsds, overVar, overMad, overProbs, underProbs,
      overMean, underMean, commonPairs, List.length_map, Function.comp]
    rfl

/-- C9.  The fair-pairing variant is the whole-market scorer on its scoped
input: with all prices valid and at least two common bookmakers,
`compute_fair_bdi_for_group` returns exactly the `jsd_mean`, `n_bookmakers`
and the `"over"`-outcome `per_outcome_std`/`per_outcome_mad` that
`bookmaker_disagreement` produces on the per-bookmaker two-entry quote sets
`{'over': o_over, 'under': o_under}` in the same bookmaker order. -/
theorem fair_pairing_refines_scorer (over_odds under_odds : List (String × ℚ))
    (hov : ∀ kv ∈ over_odds, 0 < kv.2)
    (hun : ∀ kv ∈ under_odds, 0 < kv.2)
    (hc : 2 ≤ (over_odds.filter (fun kv => (under_odds.lookup kv.1).isSome)).length) :
    ∃ r : FairBDI,
      compute_fair_bdi_for_group over_odds under_odds = Except.ok (some r) ∧
      (bookmaker_disagreement ((over_odds.filter
          (fun kv => (under_odds.lookup kv.1).isSome)).map
          (fun kv => ([("over", PyNum.num kv.2),
            ("under", PyNum.num ((under_odds.lookup kv.1).getD 0))] : QuoteSet)))).jsd_mean
        = some r.fair_BDI_jsd ∧
      (bookmaker_disagreement ((over_odds.filter
          (fun kv => (under_odds.lookup kv.1).isSome)).map
          (fun kv => ([("over", PyNum.num kv.2),
            ("under", PyNum.num ((under_odds.lookup kv.1).getD 0))] : QuoteSet)))).n_bookmakers
        = r.fair_BDI_n_bookmakers ∧
      ((bookmaker_disagreement ((over_odds.filter
          (fun kv => (under_odds.lookup kv.1).isSome)).map
          (fun kv => ([("over", PyNum.num kv.2),
            ("under", PyNum.num ((under_odds.lookup kv.1).getD 0))] : QuoteSet)))).per_outcome_std).lookup
          "over" = some r.fair_BDI_std_p ∧
      ((bookmaker_disagreement ((over_odds.filter
          (fun kv => (under_odds.lookup kv.1).isSome)).map
          (fun kv => ([("over", PyNum.num kv.2),
            ("under", PyNum.num ((under_odds.lookup kv.1).getD 0))] : QuoteSet)))).per_outcome_mad).lookup
          "over" = some r.fair_BDI_mad_p := by
  have hpos : ∀ p ∈ commonPairs over_odds under_odds, 0 < p.1 ∧ 0 < p.2 := by
    intro p hp
    rw [commonPairs] at hp
    rcases List.mem_map.mp hp with ⟨kv, hkv, hpe⟩
    have hm := List.mem_filter.mp hkv
    have hs : (under_odds.lookup kv.1).isSome = true := hm.2
    obtain ⟨v, hv⟩ := Option.isSome_iff_exists.mp hs
    have hvpos := hun (kv.1, v) (lookup_mem under_odds kv.1 v hv)
    rw [← hpe]
    refine ⟨hov kv hm.1, ?_⟩
    rw [hv]
    simpa using hvpos
  have hne : commonPairs over_odds under_odds ≠ [] := by
    intro hcon
    have h0 : (over_odds.filter (fun kv => (under_odds.lookup kv.1).isSome)).length = 0 := by
      have := congrArg List.length hcon
      rw [commonPairs, List.length_map] at this
      simpa using this
    omega
  have hinput : (over_odds.filter (fun kv => (under_odds.lookup kv.1).isSome)).map
      (fun kv => ([("over", PyNum.num kv.2),
        ("under", PyNum.num ((under_odds.lookup kv.1).getD 0))] : QuoteSet))
      = (commonPairs over_odds under_odds).map (fun p =>
        ([("over", PyNum.num p.1), ("under", PyNum.num p.2)] : QuoteSet)) := by
    rw [commonPairs, List.map_map]
    rfl
  refine ⟨⟨(pairJsds (commonPairs over_odds under_odds)).sum
      / ((commonPairs over_odds under_odds).length : ℝ),
    (commonPairs over_odds under_odds).length,
    Real.sqrt ((overVar (commonPairs over_odds under_odds) : ℚ) : ℝ),
    ((overMad (commonPairs over_odds under_odds) : ℚ) : ℝ)⟩,
    tool_on_common over_odds under_odds hov hun hc, ?_, ?_, ?_, ?_⟩
  · rw [hinput, scorer_on_pairs _ hpos hne]
  · rw [hinput, scorer_on_pairs _ hpos hne]
  · rw [hinput, scorer_on_pairs _ hpos hne]
    simp [List.lookup]
  · rw [hinput, scorer_on_pairs _ hpos hne]
    simp [List.lookup]

theorem fair_pairing_refines_scorer_witness :
    ∃ r : FairBDI,
      compute_fair_bdi_for_group [("b1", 2), ("b2", 2)] [("b1", 2), ("b2", 11/5)]
        = Except.ok (some r) ∧
      (bookmaker_disagreement ((([("b1", (2 : ℚ)), ("b2", 2)]).filter
          (fun kv => (([("b1", (2 : ℚ)), ("b2", 11/5)]).lookup kv.1).isSome)).map
          (fun kv => ([("over", PyNum.num kv.2),
            ("under", PyNum.num ((([("b1", (2 : ℚ)), ("b2", 11/5)]).lookup kv.1).getD 0))] : QuoteSet)))).jsd_mean
        = some r.fair_BDI_jsd ∧
      (bookmaker_disagreement ((([("b1", (2 : ℚ)), ("b2", 2)]).filter
          (fun kv => (([("b1", (2 : ℚ)), ("b2", 11/5)]).lookup kv.1).isSome)).map
          (fun kv => ([("over", PyNum.num kv.2),
            ("under", PyNum.num ((([("b1", (2 : ℚ)), ("b2", 11/5)]).lookup kv.1).getD 0))] : QuoteSet)))).n_bookmakers
        = r.fair_BDI_n_bookmakers ∧
      ((bookmaker_disagreement ((([("b1", (2 : ℚ)), ("b2", 2)]).filter
          (fun kv => (([("b1", (2 : ℚ)), ("b2", 11/5)]).lookup kv.1).isSome)).map
          (fun kv => ([("over", PyNum.num kv.2),
            ("under", PyNum.num ((([("b1", (2 : ℚ)), ("b2", 11/5)]).lookup kv.1).getD 0))] : QuoteSet)))).per_outcome_std).lookup
          "over" = some r.fair_BDI_std_p ∧
      ((bookmaker_disagreement ((([("b1", (2 : ℚ)), ("b2", 2)]).filter
          (fun kv => (([("b1", (2 : ℚ)), ("b2", 11/5)]).lookup kv.1).isSome)).map
          (fun kv => ([("over", PyNum.num kv.2),
            ("under", PyNum.num ((([("b1", (2 : ℚ)), ("b2", 11/5)]).lookup kv.1).getD 0))] : QuoteSet)))).per_outcome_mad).lookup
          "over" = some r.fair_BDI_mad_p := by
  apply fair_pairing_refines_scorer
  · intro kv h
    rcases List.mem_cons.mp h with h1 | h1
    · rw [h1]
      norm_num
    · rcases List.mem_cons.mp h1 with h2 | h2
      · rw [h2]
        norm_num
      · simp at h2
  · intro kv h
    rcases List.mem_cons.mp h with h1 | h1
    · rw [h1]
      norm_num
    · rcases List.mem_cons.mp h1 with h2 | h2
      · rw [h2]
        norm_num
      · simp at h2
  · simp [List.lookup]
